import Mathlib

/-!
Shallow embedding of the segmentation utilities in
src/Pascal VOC 2012 Segmentation/utils.py.

Pixel tensors of class indices (shape N*H*W) are modelled flattened as
List Int, since every metric operates elementwise; where the shape itself
matters (pixel_accuracy's assertion and element count) a Tensor structure
carrying the shape is used.  Floating point values are modelled as exact
rationals; the smoothing constants are explicit parameters, mirroring the
Python keyword arguments, and the source's defaults 1e-6 / 1e-8 are the
rationals smooth6 / smooth8.
-/

namespace VOCSeg

/-- RGB color triple, one pixel of a raw (color-encoded) label image. -/
structure RGB where
  r : Nat
  g : Nat
  b : Nat
deriving DecidableEq

/-- The 21 VOC class colors, in class-index order (VOC_COLORMAP). -/
def VOC_COLORMAP : List RGB :=
  [⟨0, 0, 0⟩, ⟨128, 0, 0⟩, ⟨0, 128, 0⟩, ⟨128, 128, 0⟩,
   ⟨0, 0, 128⟩, ⟨128, 0, 128⟩, ⟨0, 128, 128⟩, ⟨128, 128, 128⟩,
   ⟨64, 0, 0⟩, ⟨192, 0, 0⟩, ⟨64, 128, 0⟩, ⟨192, 128, 0⟩,
   ⟨64, 0, 128⟩, ⟨192, 0, 128⟩, ⟨64, 128, 128⟩, ⟨192, 128, 128⟩,
   ⟨0, 64, 0⟩, ⟨128, 64, 0⟩, ⟨0, 192, 0⟩, ⟨128, 192, 0⟩,
   ⟨0, 64, 128⟩]

/-- The 24-bit encoding (r*256+g)*256+b used to index the lookup table. -/
def encodeRGB (c : RGB) : Nat := (c.r * 256 + c.g) * 256 + c.b

/-- The loop body of voc_colormap2label: starting from table t, for each
color c (enumerated from index i) set table[encodeRGB c] := its index. -/
def buildTable : List RGB → Nat → (Nat → Nat) → Nat → Nat
  | [], _, t => t
  | c :: cs, i, t => buildTable cs (i + 1) (fun n => if n = encodeRGB c then i else t n)

/-- voc_colormap2label(): the 256^3-entry lookup table, zero-initialized,
then table[(r*256+g)*256+b] := i for the i-th VOC color; modelled as the
function sending the 24-bit code to the stored class index. -/
def voc_colormap2label : Nat → Nat := buildTable VOC_COLORMAP 0 (fun _ => 0)

/-- voc_label_indices(colormap, colormap2label): per-pixel table lookup of
the 24-bit code of the pixel's RGB triple. -/
def voc_label_indices (img : List (List RGB)) (colormap2label : Nat → Nat) :
    List (List Nat) :=
  img.map (fun row => row.map (fun p => colormap2label (encodeRGB p)))

/-- label2image(pred): per-pixel indexing of the class-color table by the
predicted class index. -/
def label2image (pred : List (List Nat)) : List (List RGB) :=
  pred.map (fun row => row.map (fun i => VOC_COLORMAP.getD i ⟨0, 0, 0⟩))

/-- The source default smooth = 1e-6 of iou and precision_recall. -/
def smooth6 : ℚ := 1 / 1000000

/-- The source default smooth = 1e-8 of mean_accuracy. -/
def smooth8 : ℚ := 1 / 100000000

/-- iou(predict, y_true, classes, ignore_background, smooth): per class i
(starting from 1 when ignore_background) intersection and union pixel
counts, smoothed ratio; returns iou[idx:]. -/
def iou (predict y_true : List Int) (classes : Nat) (ignore_background : Bool)
    (smooth : ℚ) : List ℚ :=
  let idx := if ignore_background then 1 else 0
  (List.range' idx (classes - idx)).map (fun (i : ℕ) =>
    let intersect := (predict.zip y_true).countP
      (fun ab => ab.1 == ((i : ℕ) : Int) && ab.2 == ((i : ℕ) : Int))
    let union := (predict.zip y_true).countP
      (fun ab => ab.1 == ((i : ℕ) : Int) || ab.2 == ((i : ℕ) : Int))
    ((intersect : ℚ) + smooth) / ((union : ℚ) + smooth))

/-- confusion_matrix(pred, y_true, classes): res[i][j] = number of pixels
with ground truth i and prediction j (row = truth, column = prediction);
entries are float counts in the source, exact rationals here. -/
def confusion_matrix (pred y_true : List Int) (classes : Nat) : List (List ℚ) :=
  (List.range classes).map (fun (i : ℕ) =>
    (List.range classes).map (fun (j : ℕ) =>
      ((pred.zip y_true).countP
        (fun ab => ab.2 == ((i : ℕ) : Int) && ab.1 == ((j : ℕ) : Int)) : ℚ)))

/-- precision_recall(confuse_matrix, smooth): precision[i] divides the
diagonal entry by the axis-0 sum (the column sum, stored in the source
variable matrix_row_sum), recall[i] by the axis-1 sum (the row sum). -/
def precision_recall (confuse_matrix : List (List ℚ)) (smooth : ℚ) :
    List ℚ × List ℚ :=
  let classes := confuse_matrix.length
  let matrix_row_sum := (List.range classes).map
    (fun i => (confuse_matrix.map (fun row => row.getD i 0)).sum)
  let matrix_col_sum := (List.range classes).map
    (fun i => ((confuse_matrix.getD i []).sum))
  ((List.range classes).map (fun i =>
      (((confuse_matrix.getD i []).getD i 0) + smooth) / (matrix_row_sum.getD i 0 + smooth)),
   (List.range classes).map (fun i =>
      (((confuse_matrix.getD i []).getD i 0) + smooth) / (matrix_col_sum.getD i 0 + smooth)))

/-- iou_confusion(predict, y_true, classes, ignore_background): build the
confusion matrix, take precision and recall (default smooth 1e-6), combine
elementwise as 1/(1/precision + 1/recall - 1), drop class 0 when
ignore_background. -/
def iou_confusion (predict y_true : List Int) (classes : Nat)
    (ignore_background : Bool) : List ℚ :=
  let confuse_matrix := confusion_matrix predict y_true classes
  let pr := precision_recall confuse_matrix smooth6
  let iouAll := (pr.1.zip pr.2).map (fun pq => 1 / (1 / pq.1 + 1 / pq.2 - 1))
  if ignore_background then iouAll.drop 1 else iouAll

/-- A pixel tensor: its shape and its (row-major) flattened data. -/
structure Tensor where
  shape : List Nat
  data : List Int
deriving DecidableEq

/-- A tensor is wellformed when it holds one value per index of its shape. -/
def Tensor.wf (t : Tensor) : Prop := t.data.length = t.shape.prod

/-- total = 1; for i in shape: total *= i. -/
def Tensor.numel (t : Tensor) : Nat := t.shape.foldl (· * ·) 1

/-- How pixel_accuracy can fail: the shape assertion, or the division
correct/total raising ZeroDivisionError on an empty tensor. -/
inductive PAErr where
  | shapeMismatch
  | divByZero
deriving DecidableEq

/-- pixel_accuracy(predict, y_true): asserts equal shapes, counts matching
pixels, divides by the product of the shape dimensions. -/
def pixel_accuracy (predict y_true : Tensor) : Except PAErr ℚ :=
  if predict.shape = y_true.shape then
    let total := predict.numel
    let correct := (predict.data.zip y_true.data).countP (fun ab => ab.1 == ab.2)
    if total = 0 then .error .divByZero
    else .ok ((correct : ℚ) / (total : ℚ))
  else .error .shapeMismatch

/-- mean_accuracy(predict, y_true, classes, smooth): per class i the
smoothed ratio of pixels correctly predicted as i to pixels truly labeled
i, then np.mean over the classes array. -/
def mean_accuracy (predict y_true : List Int) (classes : Nat) (smooth : ℚ) : ℚ :=
  (((List.range classes).map (fun (i : ℕ) =>
      (smooth + ((predict.zip y_true).countP
          (fun ab => ab.1 == ((i : ℕ) : Int) && ab.2 == ((i : ℕ) : Int)) : ℚ))
        / (smooth + (y_true.count ((i : ℕ) : Int) : ℚ)))).sum) / (classes : ℚ)

/-- An image as the dataset sees it: channel count is fixed at 3 in the
source (shape C*H*W, shape[1] = height, shape[2] = width); pixel data is
kept per channel. -/
structure Img where
  height : Nat
  width : Nat
  chans : List (List ℚ)
deriving DecidableEq

/-- The per-channel mean of torchvision.transforms.Normalize. -/
def voc_mean : List ℚ := [485 / 1000, 456 / 1000, 406 / 1000]

/-- The per-channel std of torchvision.transforms.Normalize. -/
def voc_std : List ℚ := [229 / 1000, 224 / 1000, 225 / 1000]

/-- normalize_image(img): img.float()/255 then per-channel (x - mean)/std. -/
def normalize_image (img : Img) : Img :=
  { img with chans := ((img.chans.zip (voc_mean.zip voc_std)).map
      (fun p => p.1.map (fun x => (x / 255 - p.2.1) / p.2.2))) }

/-- VOCSegDataset.filter(imgs): keep the images whose height (shape[1]) and
width (shape[2]) are at least the crop size. -/
def VOCSegDataset.filter (crop_size : Nat × Nat) (imgs : List Img) : List Img :=
  imgs.filter (fun img =>
    decide (crop_size.1 ≤ img.height) && decide (crop_size.2 ≤ img.width))

/-- The dataset state built by VOCSegDataset.__init__ that the claims are
about: the kept (normalized) features and the kept labels. -/
structure VOCSegDataset where
  features : List Img
  labels : List Img
deriving DecidableEq

/-- VOCSegDataset.__init__: features are filtered then normalized, labels
are filtered, each by its own shape. -/
def VOCSegDataset.init (crop_size : Nat × Nat) (features labels : List Img) :
    VOCSegDataset :=
  { features := (VOCSegDataset.filter crop_size features).map normalize_image,
    labels := VOCSegDataset.filter crop_size labels }

/-- Example predictions of the spec's worked example (classes = 3). -/
def examplePredict : List Int := [0, 1, 1, 1, 2, 0]

/-- Example ground truth of the spec's worked example. -/
def exampleTruth : List Int := [0, 0, 1, 1, 2, 2]

/-- The confusion matrix of the spec's worked example. -/
def exampleMatrix : List (List ℚ) := [[1, 1, 0], [0, 2, 0], [1, 0, 1]]

/-- A small label image made of known VOC class colors. -/
def exampleImage : List (List RGB) :=
  [[⟨128, 0, 0⟩, ⟨0, 0, 0⟩], [⟨0, 64, 128⟩, ⟨192, 128, 128⟩]]

/-- Example features: one image large enough for a 2x2 crop, one not. -/
def exampleFeatures : List Img := [⟨3, 3, [[1]]⟩, ⟨1, 5, [[2]]⟩]

/-- Example labels with the same spatial shapes as the features. -/
def exampleLabels : List Img := [⟨3, 3, [[10]]⟩, ⟨1, 5, [[20]]⟩]

/-! Helper lemmas about list counting, indexing and summation. -/

theorem getD_map_range {α : Type} {C i : Nat} (h : i < C) (f : Nat → α) (d : α) :
    ((List.range C).map f).getD i d = f i := by
  simp [List.getD_eq_getElem?_getD, List.getElem?_map, List.getElem?_range h]

theorem getD_map {α β : Type} (f : α → β) (l : List α) {i : Nat} (h : i < l.length)
    (d : α) (d' : β) : (l.map f).getD i d' = f (l.getD i d) := by
  simp [List.getD_eq_getElem?_getD, List.getElem?_map, List.getElem?_eq_getElem h]

theorem sum_map_add {α : Type} (l : List α) (f g : α → ℕ) :
    (l.map (fun x => f x + g x)).sum = (l.map f).sum + (l.map g).sum := by
  induction l with
  | nil => simp
  | cons a l ih => simp only [List.map_cons, List.sum_cons, ih]; omega

theorem sum_range_indicator (v : Int) (C : Nat) :
    ((List.range C).map (fun (j : ℕ) => if v = ((j : ℕ) : Int) then (1 : ℕ) else 0)).sum
      = if 0 ≤ v ∧ v < (C : Int) then 1 else 0 := by
  induction C with
  | zero =>
    simp only [List.range_zero, List.map_nil, List.sum_nil, Nat.cast_zero]
    have : ¬(0 ≤ v ∧ v < (0 : Int)) := by omega
    simp [this]
  | succ C ih =>
    rw [List.range_succ, List.map_append, List.sum_append, ih]
    simp only [List.map_cons, List.map_nil, List.sum_cons, List.sum_nil]
    push_cast
    split_ifs <;> omega

theorem sum_countP_range (l : List (Int × Int)) (C : Nat) (q : Int × Int → Bool)
    (f : Int × Int → Int) :
    ((List.range C).map (fun (j : ℕ) =>
        l.countP (fun x => q x && (f x == ((j : ℕ) : Int))))).sum
      = l.countP (fun x => q x && (decide (0 ≤ f x) && decide (f x < (C : Int)))) := by
  induction l with
  | nil => simp
  | cons a l ih =>
    simp only [List.countP_cons]
    rw [sum_map_add, ih]
    congr 1
    cases hq : q a with
    | false => simp [hq]
    | true =>
      simp only [hq, Bool.true_and, beq_iff_eq]
      rw [sum_range_indicator]
      by_cases h1 : 0 ≤ f a ∧ f a < (C : Int) <;> simp [h1]

theorem countP_or_and (l : List (Int × Int)) (p q : Int × Int → Bool) :
    l.countP (fun x => p x || q x) + l.countP (fun x => p x && q x)
      = l.countP p + l.countP q := by
  induction l with
  | nil => simp
  | cons a l ih =>
    simp only [List.countP_cons]
    cases hp : p a <;> cases hq : q a <;> simp [hp, hq] <;> omega

theorem countP_zip_fst (l₁ l₂ : List Int) (h : l₁.length = l₂.length)
    (p : Int → Bool) : (l₁.zip l₂).countP (fun x => p x.1) = l₁.countP p := by
  induction l₁ generalizing l₂ with
  | nil => simp
  | cons a l ih =>
    cases l₂ with
    | nil => simp at h
    | cons b l₂ =>
      simp only [List.zip_cons_cons, List.countP_cons, ih l₂ (by simpa using h)]

theorem countP_zip_snd (l₁ l₂ : List Int) (h : l₁.length = l₂.length)
    (p : Int → Bool) : (l₁.zip l₂).countP (fun x => p x.2) = l₂.countP p := by
  induction l₁ generalizing l₂ with
  | nil => cases l₂ with
    | nil => simp
    | cons b l₂ => simp at h
  | cons a l ih =>
    cases l₂ with
    | nil => simp at h
    | cons b l₂ =>
      simp only [List.zip_cons_cons, List.countP_cons, ih l₂ (by simpa using h)]

theorem countP_and_comm {α : Type} (l : List α) (p q : α → Bool) :
    l.countP (fun x => p x && q x) = l.countP (fun x => q x && p x) :=
  List.countP_congr (fun x _ => by cases p x <;> cases q x <;> simp)

theorem countP_zip_self (l : List Int) :
    (l.zip l).countP (fun ab => ab.1 == ab.2) = l.length := by
  induction l with
  | nil => simp
  | cons a l ih => simp [List.zip_cons_cons, List.countP_cons, ih]

theorem sum_map_getD (l : List (List ℚ)) (g : List ℚ → ℚ) :
    (l.map g).sum = ((List.range l.length).map (fun t => g (l.getD t []))).sum := by
  induction l with
  | nil => simp
  | cons a l ih =>
    rw [List.map_cons, List.sum_cons, List.length_cons, List.range_succ_eq_map,
      List.map_cons, List.sum_cons, List.map_map]
    simp only [List.getD_cons_zero, Function.comp]
    rw [ih]
    congr 1

theorem list_sum_range_eq_finset (n : Nat) (f : Nat → ℚ) :
    ((List.range n).map f).sum = ∑ i ∈ Finset.range n, f i := by
  induction n with
  | zero => simp
  | succ n ih =>
    rw [List.range_succ, List.map_append, List.sum_append, Finset.sum_range_succ, ih]
    simp

theorem countP_lt_length {α : Type} (l : List α) (p : α → Bool) (a : α)
    (ha : a ∈ l) (hp : p a = false) : l.countP p < l.length := by
  rcases Nat.lt_or_ge (l.countP p) l.length with h | h
  · exact h
  · have heq : l.countP p = l.length := Nat.le_antisymm (List.countP_le_length p) h
    have := List.countP_eq_length.mp heq a ha
    rw [hp] at this
    exact absurd this (by simp)

theorem buildTable_not_mem (cs : List RGB) (i : Nat) (t : Nat → Nat) (n : Nat)
    (h : ∀ c ∈ cs, n ≠ encodeRGB c) : buildTable cs i t n = t n := by
  induction cs generalizing i t with
  | nil => rfl
  | cons c cs ih =>
    rw [buildTable, ih _ _ (fun d hd => h d (List.mem_cons_of_mem c hd))]
    simp [h c (List.mem_cons_self c cs)]

theorem encodeRGB_inj {c d : RGB} (hc : c.r < 256 ∧ c.g < 256 ∧ c.b < 256)
    (hd : d.r < 256 ∧ d.g < 256 ∧ d.b < 256) (h : encodeRGB c = encodeRGB d) :
    c = d := by
  obtain ⟨cr, cg, cb⟩ := c
  obtain ⟨dr, dg, db⟩ := d
  simp only [encodeRGB] at h
  simp only at hc hd
  have : cr = dr ∧ cg = dg ∧ cb = db := by omega
  simp [this.1, this.2.1, this.2.2]

theorem map_eq_self {α : Type} (l : List α) (f : α → α) (h : ∀ a ∈ l, f a = a) :
    l.map f = l := by
  induction l with
  | nil => rfl
  | cons a l ih =>
    rw [List.map_cons, h a (List.mem_cons_self a l),
      ih (fun x hx => h x (List.mem_cons_of_mem a hx))]

theorem numel_eq_prod (t : Tensor) : t.numel = t.shape.prod := by
  rw [Tensor.numel, List.prod_eq_foldl]

/-! Claim theorems. -/

/-- C2: for every confusion matrix M (convention row = ground truth,
column = prediction), precision_recall returns, at every class index i,
precision[i] = (M[i][i]+smooth)/(colSum[i]+smooth) with colSum[i] the sum
of column i, and recall[i] = (M[i][i]+smooth)/(rowSum[i]+smooth) with
rowSum[i] the sum of row i. -/
theorem precision_recall_spec (M : List (List ℚ)) (smooth : ℚ) (n : Nat)
    (hn : M.length = n) (i : Nat) (hi : i < n) :
    (precision_recall M smooth).1.getD i 0
      = ((M.getD i []).getD i 0 + smooth)
        / (((List.range n).map (fun t => (M.getD t []).getD i 0)).sum + smooth)
    ∧ (precision_recall M smooth).2.getD i 0
      = ((M.getD i []).getD i 0 + smooth) / ((M.getD i []).sum + smooth) := by
  subst hn
  constructor
  · show (((List.range M.length).map fun i =>
        ((M.getD i []).getD i 0 + smooth)
          / (((List.range M.length).map
              (fun t => (M.map (fun row => row.getD t 0)).sum)).getD i 0 + smooth))).getD i 0 = _
    rw [getD_map_range hi, getD_map_range hi, sum_map_getD M (fun row => row.getD i 0)]
  · show (((List.range M.length).map fun i =>
        ((M.getD i []).getD i 0 + smooth)
          / (((List.range M.length).map
              (fun t => (M.getD t []).sum)).getD i 0 + smooth))).getD i 0 = _
    rw [getD_map_range hi, getD_map_range hi]

/-- C4: voc_label_indices writes at every pixel the table value at the code
(r*256+g)*256+b of that pixel's triple; the table sends the i-th known VOC
color to i and every valid RGB triple outside the known list to 0. -/
theorem voc_label_indices_table_spec (img : List (List RGB)) (h w : Nat)
    (c : RGB) (hh : h < img.length) (hw : w < (img.getD h []).length)
    (hr : c.r < 256) (hg : c.g < 256) (hb : c.b < 256)
    (hc : c ∉ VOC_COLORMAP) :
    ((voc_label_indices img voc_colormap2label).getD h []).getD w 0
        = voc_colormap2label (encodeRGB ((img.getD h []).getD w ⟨0, 0, 0⟩))
    ∧ (∀ i, i < VOC_COLORMAP.length →
        voc_colormap2label (encodeRGB (VOC_COLORMAP.getD i ⟨0, 0, 0⟩)) = i)
    ∧ voc_colormap2label (encodeRGB c) = 0 := by
  refine ⟨?_, by decide, ?_⟩
  · unfold voc_label_indices
    rw [getD_map _ img hh []]
    rw [getD_map _ _ hw ⟨0, 0, 0⟩]
  · have hvalid : ∀ d ∈ VOC_COLORMAP, d.r < 256 ∧ d.g < 256 ∧ d.b < 256 := by decide
    unfold voc_colormap2label
    rw [buildTable_not_mem]
    intro d hd he
    exact hc (encodeRGB_inj ⟨hr, hg, hb⟩ (hvalid d hd) he ▸ hd)

/-- C5: on a label image whose every pixel color is one of the known VOC
class colors, decoding with voc_label_indices and re-encoding with
label2image reconstructs the original image exactly. -/
theorem label2image_roundtrip (img : List (List RGB))
    (h : ∀ row ∈ img, ∀ p ∈ row, p ∈ VOC_COLORMAP) :
    label2image (voc_label_indices img voc_colormap2label) = img := by
  have key : ∀ p ∈ VOC_COLORMAP,
      VOC_COLORMAP.getD (voc_colormap2label (encodeRGB p)) ⟨0, 0, 0⟩ = p := by decide
  unfold label2image voc_label_indices
  rw [List.map_map]
  apply map_eq_self
  intro row hrow
  simp only [Function.comp]
  rw [List.map_map]
  apply map_eq_self
  intro p hp
  exact key p (h row hrow p hp)

/-- C6: mean_accuracy is the arithmetic mean over the C classes of
(smooth + count(pred = i and truth = i)) / (smooth + count(truth = i)),
and a class with no ground-truth pixels contributes the term 1 exactly. -/
theorem mean_accuracy_spec (predict y_true : List Int) (classes : Nat)
    (smooth : ℚ) (hs : 0 < smooth) :
    mean_accuracy predict y_true classes smooth
        = (∑ k ∈ Finset.range classes,
            (smooth + ((predict.zip y_true).countP
                (fun ab => ab.1 == ((k : ℕ) : Int) && ab.2 == ((k : ℕ) : Int)) : ℚ))
              / (smooth + (y_true.count ((k : ℕ) : Int) : ℚ))) / (classes : ℚ)
    ∧ ∀ i : ℕ, y_true.count ((i : ℕ) : Int) = 0 →
        (smooth + ((predict.zip y_true).countP
            (fun ab => ab.1 == ((i : ℕ) : Int) && ab.2 == ((i : ℕ) : Int)) : ℚ))
          / (smooth + (y_true.count ((i : ℕ) : Int) : ℚ)) = 1 := by
  constructor
  · unfold mean_accuracy
    rw [list_sum_range_eq_finset]
  · intro i habsent
    have hnot : ((i : ℕ) : Int) ∉ y_true := List.count_eq_zero.mp habsent
    have h0 : (predict.zip y_true).countP
        (fun ab => ab.1 == ((i : ℕ) : Int) && ab.2 == ((i : ℕ) : Int)) = 0 := by
      rw [List.countP_eq_zero]
      intro ab hab hcontra
      simp only [Bool.and_eq_true, beq_iff_eq] at hcontra
      exact hnot (hcontra.2 ▸ (List.of_mem_zip hab).2)
    rw [habsent, h0]
    simp only [Nat.cast_zero, add_zero]
    exact div_self (ne_of_gt hs)

/-- C7 counterexample: on the empty tensor of shape [0] the code divides by
zero instead of returning 1.0, so pixel_accuracy(A, A) = 1.0 fails for this
pixel array A. -/
theorem pixel_accuracy_empty_self_ne_one :
    pixel_accuracy ⟨[0], []⟩ ⟨[0], []⟩ ≠ Except.ok 1 := by
  unfold pixel_accuracy Tensor.numel
  simp

/-- C7 (amended to nonempty arrays): for every nonempty wellformed pixel
array A, pixel_accuracy(A, A) = 1.0, and for every equally shaped
wellformed B agreeing with A at no pixel, pixel_accuracy(A, B) = 0.0. -/
theorem pixel_accuracy_self_spec (A B : Tensor) (hA : A.wf) (hB : B.wf)
    (hpos : 0 < A.numel) :
    pixel_accuracy A A = Except.ok 1
    ∧ (A.shape = B.shape → (∀ ab ∈ A.data.zip B.data, ab.1 ≠ ab.2) →
        pixel_accuracy A B = Except.ok 0) := by
  have hne : ¬(A.numel = 0) := Nat.pos_iff_ne_zero.mp hpos
  constructor
  · unfold pixel_accuracy
    rw [if_pos rfl]
    simp only
    rw [if_neg hne, countP_zip_self]
    have hlen : A.data.length = A.numel := by rw [hA, numel_eq_prod]
    rw [hlen, div_self (by exact_mod_cast hne)]
  · intro hsh hdis
    unfold pixel_accuracy
    rw [if_pos hsh]
    simp only
    rw [if_neg hne]
    have h0 : (A.data.zip B.data).countP (fun ab => ab.1 == ab.2) = 0 := by
      rw [List.countP_eq_zero]
      intro ab hab hcontra
      exact hdis ab hab (by simpa using hcontra)
    rw [h0]
    simp

/-- C9 counterexample: the two empty tensors of shape [0] have identical
shapes and pass the assertion, yet no fraction is returned: the division
correct/total raises ZeroDivisionError. -/
theorem pixel_accuracy_equal_shapes_error :
    pixel_accuracy ⟨[0], []⟩ ⟨[0], []⟩ = Except.error PAErr.divByZero := rfl

/-- C9 (amended to nonempty arrays): differently shaped inputs fail via the
assertion; identically shaped inputs with at least one element pass the
assertion and a fraction is returned. -/
theorem pixel_accuracy_shape_spec (A B : Tensor) :
    (A.shape ≠ B.shape → pixel_accuracy A B = Except.error PAErr.shapeMismatch)
    ∧ (A.shape = B.shape → 0 < A.numel → ∃ q : ℚ, pixel_accuracy A B = Except.ok q) := by
  constructor
  · intro h
    unfold pixel_accuracy
    rw [if_neg h]
  · intro h hpos
    unfold pixel_accuracy
    rw [if_pos h]
    simp only
    rw [if_neg (Nat.pos_iff_ne_zero.mp hpos)]
    exact ⟨_, rfl⟩

theorem filter_zip_of_forall₂ {α β : Type} {l₁ : List α} {l₂ : List β}
    {p : α → Bool} {q : β → Bool} {r : α × β → Bool}
    (h : List.Forall₂ (fun a b => p a = r (a, b) ∧ q b = r (a, b)) l₁ l₂) :
    l₁.filter p = ((l₁.zip l₂).filter r).map Prod.fst
    ∧ l₂.filter q = ((l₁.zip l₂).filter r).map Prod.snd := by
  induction h with
  | nil => exact ⟨rfl, rfl⟩
  | @cons a b l₁ l₂ h₁ h₂ ih =>
    simp only [List.zip_cons_cons, List.filter_cons, h₁.1, h₁.2]
    cases hr : r (a, b) with
    | false => simpa [hr] using ih
    | true => simp only [if_pos rfl, List.map_cons, ih.1, ih.2]; exact ⟨rfl, rfl⟩

/-- C8: when feature and label shapes agree pairwise, the constructed
dataset keeps exactly the pairs whose height and width both reach the crop
size, the kept features (normalized) staying aligned with their own
labels. -/
theorem dataset_filter_pairing (crop : Nat × Nat) (features labels : List Img)
    (hsh : List.Forall₂ (fun f l => f.height = l.height ∧ f.width = l.width)
      features labels) :
    (VOCSegDataset.init crop features labels).features
        = ((features.zip labels).filter (fun p =>
            decide (crop.1 ≤ p.1.height) && decide (crop.2 ≤ p.1.width))).map
            (fun p => normalize_image p.1)
    ∧ (VOCSegDataset.init crop features labels).labels
        = ((features.zip labels).filter (fun p =>
            decide (crop.1 ≤ p.1.height) && decide (crop.2 ≤ p.1.width))).map
            Prod.snd := by
  have h := filter_zip_of_forall₂
    (p := fun f => decide (crop.1 ≤ f.height) && decide (crop.2 ≤ f.width))
    (q := fun l => decide (crop.1 ≤ l.height) && decide (crop.2 ≤ l.width))
    (r := fun pr => decide (crop.1 ≤ pr.1.height) && decide (crop.2 ≤ pr.1.width))
    (hsh.imp (fun a b hab => ⟨rfl, by simp only [hab.1, hab.2]⟩))
  constructor
  · simp only [VOCSegDataset.init, VOCSegDataset.filter]
    rw [h.1, List.map_map]
    rfl
  · simp only [VOCSegDataset.init, VOCSegDataset.filter]
    exact h.2

theorem sum_map_natcast {α : Type} (l : List α) (g : α → ℕ) :
    (l.map (fun x => ((g x : ℕ) : ℚ))).sum = (((l.map g).sum : ℕ) : ℚ) := by
  rw [Nat.cast_list_sum, List.map_map]
  rfl

theorem confusion_row_sum_nat (pred y_true : List Int) (C i : Nat) (hi : i < C) :
    ((confusion_matrix pred y_true C).getD i []).sum
      = (((pred.zip y_true).countP (fun ab => ab.2 == ((i : ℕ) : Int)
          && (decide (0 ≤ ab.1) && decide (ab.1 < (C : Int))))) : ℚ) := by
  unfold confusion_matrix
  rw [getD_map_range hi,
    sum_map_natcast (List.range C) (fun (j : ℕ) => (pred.zip y_true).countP
      (fun ab => ab.2 == ((i : ℕ) : Int) && ab.1 == ((j : ℕ) : Int))),
    sum_countP_range (pred.zip y_true) C
      (fun ab => ab.2 == ((i : ℕ) : Int)) (fun ab => ab.1)]

theorem confusion_col_sum_nat (pred y_true : List Int) (C j : Nat) (hj : j < C) :
    ((confusion_matrix pred y_true C).map (fun row => row.getD j 0)).sum
      = (((pred.zip y_true).countP (fun ab => ab.1 == ((j : ℕ) : Int)
          && (decide (0 ≤ ab.2) && decide (ab.2 < (C : Int))))) : ℚ) := by
  unfold confusion_matrix
  rw [List.map_map]
  rw [List.map_congr_left (fun (i : ℕ) _ => by
    show ((List.range C).map (fun (t : ℕ) => (((pred.zip y_true).countP
        (fun ab => ab.2 == ((i : ℕ) : Int) && ab.1 == ((t : ℕ) : Int))) : ℚ))).getD j 0
      = (((pred.zip y_true).countP
          (fun ab => ab.1 == ((j : ℕ) : Int) && ab.2 == ((i : ℕ) : Int))) : ℚ)
    rw [getD_map_range hj]
    exact congrArg Nat.cast (countP_and_comm (pred.zip y_true) _ _))]
  rw [sum_map_natcast (List.range C) (fun (i : ℕ) => (pred.zip y_true).countP
      (fun ab => ab.1 == ((j : ℕ) : Int) && ab.2 == ((i : ℕ) : Int))),
    sum_countP_range (pred.zip y_true) C
      (fun ab => ab.1 == ((j : ℕ) : Int)) (fun ab => ab.2)]

theorem confusion_total_nat (pred y_true : List Int) (C : Nat) :
    ((confusion_matrix pred y_true C).map List.sum).sum
      = (((pred.zip y_true).countP (fun ab =>
          (decide (0 ≤ ab.1) && decide (ab.1 < (C : Int)))
            && (decide (0 ≤ ab.2) && decide (ab.2 < (C : Int))))) : ℚ) := by
  unfold confusion_matrix
  rw [List.map_map]
  rw [List.map_congr_left (fun (i : ℕ) _ => by
    show ((List.range C).map (fun (t : ℕ) => (((pred.zip y_true).countP
        (fun ab => ab.2 == ((i : ℕ) : Int) && ab.1 == ((t : ℕ) : Int))) : ℚ))).sum
      = (((pred.zip y_true).countP (fun ab =>
          (decide (0 ≤ ab.1) && decide (ab.1 < (C : Int)))
            && ab.2 == ((i : ℕ) : Int))) : ℚ)
    rw [sum_map_natcast (List.range C) (fun (t : ℕ) => (pred.zip y_true).countP
        (fun ab => ab.2 == ((i : ℕ) : Int) && ab.1 == ((t : ℕ) : Int))),
      sum_countP_range (pred.zip y_true) C
        (fun ab => ab.2 == ((i : ℕ) : Int)) (fun ab => ab.1)]
    exact congrArg Nat.cast (countP_and_comm (pred.zip y_true) _ _))]
  rw [sum_map_natcast (List.range C) (fun (i : ℕ) => (pred.zip y_true).countP
      (fun ab => (decide (0 ≤ ab.1) && decide (ab.1 < (C : Int)))
        && ab.2 == ((i : ℕ) : Int))),
    sum_countP_range (pred.zip y_true) C
      (fun ab => decide (0 ≤ ab.1) && decide (ab.1 < (C : Int))) (fun ab => ab.2)]

/-- C3: when every class index is in range, the confusion matrix's row-i
sum is the ground-truth pixel count of class i, its column-j sum is the
predicted pixel count of class j, and its grand total is the pixel count. -/
theorem confusion_matrix_sums (pred y_true : List Int) (C : Nat)
    (hlen : pred.length = y_true.length)
    (hp : ∀ x ∈ pred, 0 ≤ x ∧ x < (C : Int))
    (ht : ∀ x ∈ y_true, 0 ≤ x ∧ x < (C : Int)) :
    (∀ i, i < C → ((confusion_matrix pred y_true C).getD i []).sum
        = (y_true.count ((i : ℕ) : Int) : ℚ))
    ∧ (∀ j, j < C →
        ((confusion_matrix pred y_true C).map (fun row => row.getD j 0)).sum
          = (pred.count ((j : ℕ) : Int) : ℚ))
    ∧ ((confusion_matrix pred y_true C).map List.sum).sum
        = (y_true.length : ℚ) := by
  refine ⟨fun i hi => ?_, fun j hj => ?_, ?_⟩
  · have h1 : (pred.zip y_true).countP (fun ab => ab.2 == ((i : ℕ) : Int)
        && (decide (0 ≤ ab.1) && decide (ab.1 < (C : Int))))
        = y_true.count ((i : ℕ) : Int) := by
      rw [List.countP_congr (q := fun x => x.2 == ((i : ℕ) : Int))
          (fun ab hab => by
            have h2 := hp ab.1 (List.of_mem_zip hab).1
            simp [h2.1, h2.2]),
        countP_zip_snd pred y_true hlen (fun x => x == ((i : ℕ) : Int)),
        ← List.count_eq_countP]
    rw [confusion_row_sum_nat pred y_true C i hi, h1]
  · have h1 : (pred.zip y_true).countP (fun ab => ab.1 == ((j : ℕ) : Int)
        && (decide (0 ≤ ab.2) && decide (ab.2 < (C : Int))))
        = pred.count ((j : ℕ) : Int) := by
      rw [List.countP_congr (q := fun x => x.1 == ((j : ℕ) : Int))
          (fun ab hab => by
            have h2 := ht ab.2 (List.of_mem_zip hab).2
            simp [h2.1, h2.2]),
        countP_zip_fst pred y_true hlen (fun x => x == ((j : ℕ) : Int)),
        ← List.count_eq_countP]
    rw [confusion_col_sum_nat pred y_true C j hj, h1]
  · have h1 : (pred.zip y_true).countP (fun ab =>
        (decide (0 ≤ ab.1) && decide (ab.1 < (C : Int)))
          && (decide (0 ≤ ab.2) && decide (ab.2 < (C : Int))))
        = y_true.length := by
      rw [List.countP_congr (q := fun _ => true)
          (fun ab hab => by
            have h2 := hp ab.1 (List.of_mem_zip hab).1
            have h3 := ht ab.2 (List.of_mem_zip hab).2
            simp [h2.1, h2.2, h3.1, h3.2]),
        List.countP_true, List.length_zip, hlen, Nat.min_self]
    rw [confusion_total_nat pred y_true C, h1]

/-- C10: the grand total of the confusion matrix counts exactly the pixels
whose prediction and ground truth both lie in [0, C); if some pixel has
either value out of range, the grand total is strictly below the pixel
count. -/
theorem confusion_matrix_out_of_range_total (pred y_true : List Int)
    (C : Nat) (hlen : pred.length = y_true.length) :
    ((confusion_matrix pred y_true C).map List.sum).sum
        = (((pred.zip y_true).countP (fun ab =>
            (decide (0 ≤ ab.1) && decide (ab.1 < (C : Int)))
              && (decide (0 ≤ ab.2) && decide (ab.2 < (C : Int))))) : ℚ)
    ∧ ∀ ab ∈ pred.zip y_true,
        ¬((0 ≤ ab.1 ∧ ab.1 < (C : Int)) ∧ (0 ≤ ab.2 ∧ ab.2 < (C : Int))) →
        ((confusion_matrix pred y_true C).map List.sum).sum
          < (y_true.length : ℚ) := by
  refine ⟨confusion_total_nat pred y_true C, fun ab hab hbad => ?_⟩
  rw [confusion_total_nat pred y_true C]
  have hfalse : ((decide (0 ≤ ab.1) && decide (ab.1 < (C : Int)))
      && (decide (0 ≤ ab.2) && decide (ab.2 < (C : Int)))) = false := by
    rcases Bool.eq_false_or_eq_true ((decide (0 ≤ ab.1) && decide (ab.1 < (C : Int)))
        && (decide (0 ≤ ab.2) && decide (ab.2 < (C : Int)))) with h | h
    · exact absurd (by simpa using h) hbad
    · exact h
  have hlt := countP_lt_length (pred.zip y_true)
    (fun ab => (decide (0 ≤ ab.1) && decide (ab.1 < (C : Int)))
      && (decide (0 ≤ ab.2) && decide (ab.2 < (C : Int)))) ab hab hfalse
  rw [List.length_zip, hlen, Nat.min_self] at hlt
  exact_mod_cast hlt

theorem smooth6_pos : 0 < smooth6 := by norm_num [smooth6]

theorem iou_term_eq (a P R U s : ℚ) (ha' : a + s ≠ 0) (hPR : U + a = P + R) :
    1 / (1 / ((a + s) / (P + s)) + 1 / ((a + s) / (R + s)) - 1)
      = (a + s) / (U + s) := by
  rw [one_div_div, one_div_div, div_add_div_same]
  have h1 : U + s = P + s + (R + s) - (a + s) := by linarith
  have key : (P + s + (R + s)) / (a + s) - 1 = (U + s) / (a + s) := by
    rw [h1, sub_div, div_self ha']
  rw [key, one_div_div]

theorem confusion_diag (pred y_true : List Int) (C i : Nat) (hi : i < C) :
    ((confusion_matrix pred y_true C).getD i []).getD i 0
      = (((pred.zip y_true).countP
          (fun ab => ab.1 == ((i : ℕ) : Int) && ab.2 == ((i : ℕ) : Int))) : ℚ) := by
  unfold confusion_matrix
  rw [getD_map_range hi, getD_map_range hi]
  exact congrArg Nat.cast (countP_and_comm _ _ _)

theorem confusion_col_sum_inrange (pred y_true : List Int) (C j : Nat)
    (hj : j < C) (ht : ∀ x ∈ y_true, 0 ≤ x ∧ x < (C : Int)) :
    ((confusion_matrix pred y_true C).map (fun row => row.getD j 0)).sum
      = (((pred.zip y_true).countP (fun ab => ab.1 == ((j : ℕ) : Int))) : ℚ) := by
  rw [confusion_col_sum_nat pred y_true C j hj]
  exact congrArg Nat.cast (List.countP_congr (fun ab hab => by
    have h2 := ht ab.2 (List.of_mem_zip hab).2
    simp [h2.1, h2.2]))

theorem confusion_row_sum_inrange (pred y_true : List Int) (C i : Nat)
    (hi : i < C) (hp : ∀ x ∈ pred, 0 ≤ x ∧ x < (C : Int)) :
    ((confusion_matrix pred y_true C).getD i []).sum
      = (((pred.zip y_true).countP (fun ab => ab.2 == ((i : ℕ) : Int))) : ℚ) := by
  rw [confusion_row_sum_nat pred y_true C i hi]
  exact congrArg Nat.cast (List.countP_congr (fun ab hab => by
    have h2 := hp ab.1 (List.of_mem_zip hab).1
    simp [h2.1, h2.2]))

theorem iou_all_closed (predict y_true : List Int) (C : Nat)
    (hp : ∀ x ∈ predict, 0 ≤ x ∧ x < (C : Int))
    (ht : ∀ x ∈ y_true, 0 ≤ x ∧ x < (C : Int)) :
    ((precision_recall (confusion_matrix predict y_true C) smooth6).1.zip
      (precision_recall (confusion_matrix predict y_true C) smooth6).2).map
      (fun pq => 1 / (1 / pq.1 + 1 / pq.2 - 1))
    = (List.range C).map (fun (i : ℕ) =>
        ((((predict.zip y_true).countP
            (fun ab => ab.1 == ((i : ℕ) : Int) && ab.2 == ((i : ℕ) : Int))) : ℚ)
              + smooth6)
        / ((((predict.zip y_true).countP
            (fun ab => ab.1 == ((i : ℕ) : Int) || ab.2 == ((i : ℕ) : Int))) : ℚ)
              + smooth6)) := by
  have hcmlen : (confusion_matrix predict y_true C).length = C := by
    unfold confusion_matrix
    rw [List.length_map, List.length_range]
  simp only [precision_recall]
  rw [hcmlen, List.zip_map', List.map_map]
  apply List.map_congr_left
  intro i hi
  have hi' : i < C := List.mem_range.mp hi
  simp only [Function.comp]
  rw [getD_map_range hi', getD_map_range hi',
    confusion_diag predict y_true C i hi',
    confusion_col_sum_inrange predict y_true C i hi' ht,
    confusion_row_sum_inrange predict y_true C i hi' hp]
  apply iou_term_eq
  · exact ne_of_gt (add_pos_of_nonneg_of_pos (Nat.cast_nonneg _) smooth6_pos)
  · exact_mod_cast countP_or_and (predict.zip y_true)
      (fun ab => ab.1 == ((i : ℕ) : Int)) (fun ab => ab.2 == ((i : ℕ) : Int))

/-- C1: on equal-shaped class-index arrays whose values all lie in [0, C),
the direct per-class IoU and the confusion-matrix-derived IoU (through
IoU = 1/(1/precision + 1/recall - 1)) agree exactly for the classes both
return, for either value of ignore_background. -/
theorem iou_eq_iou_confusion (predict y_true : List Int) (C : Nat) (b : Bool)
    (hlen : predict.length = y_true.length)
    (hp : ∀ x ∈ predict, 0 ≤ x ∧ x < (C : Int))
    (ht : ∀ x ∈ y_true, 0 ≤ x ∧ x < (C : Int)) :
    iou predict y_true C b smooth6 = iou_confusion predict y_true C b := by
  simp only [iou, iou_confusion]
  rw [iou_all_closed predict y_true C hp ht]
  cases b with
  | false =>
    simp only [Bool.false_eq_true, if_false]
    rw [List.range_eq_range', Nat.sub_zero]
  | true =>
    simp only [if_true]
    cases C with
    | zero => rfl
    | succ m =>
      rw [List.range_eq_range',
        show List.range' 0 (m + 1) = 0 :: List.range' 1 m by rw [List.range'_succ],
        Nat.succ_sub_one, List.map_cons, List.drop_succ_cons, List.drop_zero]

/-! Witnesses: each applies its claim theorem at concrete inputs. -/

/-- C1 witness at the spec's worked example with ignore_background. -/
theorem iou_eq_iou_confusion_witness :
    iou examplePredict exampleTruth 3 true smooth6
      = iou_confusion examplePredict exampleTruth 3 true :=
  iou_eq_iou_confusion examplePredict exampleTruth 3 true rfl
    (by decide) (by decide)

/-- C2 witness at the worked example's confusion matrix, class 1. -/
theorem precision_recall_spec_witness :
    (precision_recall exampleMatrix smooth6).1.getD 1 0
      = ((exampleMatrix.getD 1 []).getD 1 0 + smooth6)
        / (((List.range 3).map
            (fun t => (exampleMatrix.getD t []).getD 1 0)).sum + smooth6)
    ∧ (precision_recall exampleMatrix smooth6).2.getD 1 0
      = ((exampleMatrix.getD 1 []).getD 1 0 + smooth6)
        / ((exampleMatrix.getD 1 []).sum + smooth6) :=
  precision_recall_spec exampleMatrix smooth6 3 rfl 1 (by norm_num)

/-- C3 witness at the worked example: row 1, column 2, grand total. -/
theorem confusion_matrix_sums_witness :
    ((confusion_matrix examplePredict exampleTruth 3).getD 1 []).sum
        = ((exampleTruth.count ((1 : ℕ) : Int)) : ℚ)
    ∧ ((confusion_matrix examplePredict exampleTruth 3).map
        (fun row => row.getD 2 0)).sum
        = ((examplePredict.count ((2 : ℕ) : Int)) : ℚ)
    ∧ ((confusion_matrix examplePredict exampleTruth 3).map List.sum).sum
        = (exampleTruth.length : ℚ) :=
  ⟨(confusion_matrix_sums examplePredict exampleTruth 3 rfl
      (by decide) (by decide)).1 1 (by norm_num),
   (confusion_matrix_sums examplePredict exampleTruth 3 rfl
      (by decide) (by decide)).2.1 2 (by norm_num),
   (confusion_matrix_sums examplePredict exampleTruth 3 rfl
      (by decide) (by decide)).2.2⟩

/-- C4 witness: pixel (0,1) of the example image, and the unknown triple
(1,2,3). -/
theorem voc_label_indices_table_spec_witness :
    ((voc_label_indices exampleImage voc_colormap2label).getD 0 []).getD 1 0
        = voc_colormap2label (encodeRGB ((exampleImage.getD 0 []).getD 1 ⟨0, 0, 0⟩))
    ∧ voc_colormap2label (encodeRGB ⟨1, 2, 3⟩) = 0 :=
  ⟨(voc_label_indices_table_spec exampleImage 0 1 ⟨1, 2, 3⟩ (by decide)
      (by decide) (by decide) (by decide) (by decide) (by decide)).1,
   (voc_label_indices_table_spec exampleImage 0 1 ⟨1, 2, 3⟩ (by decide)
      (by decide) (by decide) (by decide) (by decide) (by decide)).2.2⟩

/-- C5 witness: the example image decodes and re-encodes to itself. -/
theorem label2image_roundtrip_witness :
    label2image (voc_label_indices exampleImage voc_colormap2label)
      = exampleImage :=
  label2image_roundtrip exampleImage (by decide)

/-- C6 witness with classes = 4: class 3 is absent from the ground truth
and its term is 1. -/
theorem mean_accuracy_spec_witness :
    mean_accuracy examplePredict exampleTruth 4 smooth8
        = (∑ k ∈ Finset.range 4,
            (smooth8 + ((examplePredict.zip exampleTruth).countP
                (fun ab => ab.1 == ((k : ℕ) : Int) && ab.2 == ((k : ℕ) : Int)) : ℚ))
              / (smooth8 + (exampleTruth.count ((k : ℕ) : Int) : ℚ))) / ((4 : ℕ) : ℚ)
    ∧ (smooth8 + ((examplePredict.zip exampleTruth).countP
        (fun ab => ab.1 == ((3 : ℕ) : Int) && ab.2 == ((3 : ℕ) : Int)) : ℚ))
        / (smooth8 + (exampleTruth.count ((3 : ℕ) : Int) : ℚ)) = 1 :=
  ⟨(mean_accuracy_spec examplePredict exampleTruth 4 smooth8
      (by norm_num [smooth8])).1,
   (mean_accuracy_spec examplePredict exampleTruth 4 smooth8
      (by norm_num [smooth8])).2 3 (by decide)⟩

/-- C7 witness: identical nonempty tensors score 1, fully disagreeing ones
score 0. -/
theorem pixel_accuracy_self_spec_witness :
    pixel_accuracy ⟨[2], [0, 1]⟩ ⟨[2], [0, 1]⟩ = Except.ok 1
    ∧ pixel_accuracy ⟨[2], [0, 1]⟩ ⟨[2], [3, 4]⟩ = Except.ok 0 :=
  ⟨(pixel_accuracy_self_spec ⟨[2], [0, 1]⟩ ⟨[2], [3, 4]⟩ rfl rfl
      (by decide)).1,
   (pixel_accuracy_self_spec ⟨[2], [0, 1]⟩ ⟨[2], [3, 4]⟩ rfl rfl
      (by decide)).2 rfl (by decide)⟩

/-- C8 witness: with crop 2x2 only the 3x3 pair is kept, still paired. -/
theorem dataset_filter_pairing_witness :
    (VOCSegDataset.init (2, 2) exampleFeatures exampleLabels).features
        = ((exampleFeatures.zip exampleLabels).filter (fun p =>
            decide (2 ≤ p.1.height) && decide (2 ≤ p.1.width))).map
            (fun p => normalize_image p.1)
    ∧ (VOCSegDataset.init (2, 2) exampleFeatures exampleLabels).labels
        = ((exampleFeatures.zip exampleLabels).filter (fun p =>
            decide (2 ≤ p.1.height) && decide (2 ≤ p.1.width))).map
            Prod.snd :=
  dataset_filter_pairing (2, 2) exampleFeatures exampleLabels
    (by unfold exampleFeatures exampleLabels
        exact .cons ⟨rfl, rfl⟩ (.cons ⟨rfl, rfl⟩ .nil))

/-- C9 witness: differently shaped tensors hit the shape assertion. -/
theorem pixel_accuracy_shape_spec_witness :
    pixel_accuracy ⟨[2], [0, 1]⟩ ⟨[1, 2], [0, 1]⟩
      = Except.error PAErr.shapeMismatch :=
  (pixel_accuracy_shape_spec ⟨[2], [0, 1]⟩ ⟨[1, 2], [0, 1]⟩).1 (by decide)

/-- C10 witness: with pred = [0, 5] and truth = [0, 1] at C = 3 the grand
total counts only the in-range pixel and is below the pixel count. -/
theorem confusion_matrix_out_of_range_total_witness :
    ((confusion_matrix [0, 5] [0, 1] 3).map List.sum).sum
        = (((([0, 5] : List Int).zip ([0, 1] : List Int)).countP (fun ab =>
            (decide (0 ≤ ab.1) && decide (ab.1 < (3 : Int)))
              && (decide (0 ≤ ab.2) && decide (ab.2 < (3 : Int))))) : ℚ)
    ∧ ((confusion_matrix [0, 5] [0, 1] 3).map List.sum).sum
        < ((([0, 1] : List Int).length : ℕ) : ℚ) :=
  ⟨(confusion_matrix_out_of_range_total [0, 5] [0, 1] 3 rfl).1,
   (confusion_matrix_out_of_range_total [0, 5] [0, 1] 3 rfl).2 (5, 1)
      (by decide) (by decide)⟩

end VOCSeg
